import Mathlib

/-!
# Luminosity distance integrator

Shallow embedding of `calculateDL` from `Practices/Practice_2/lumdistcalc.cpp`
(lines 9-43); `Practices/Practice_2/lumdistcalcfits.cpp` (lines 12-46) holds a
textually identical copy of the function.

Two embeddings of the same function are given.

* The exact embedding (`calculateDL`, `calculateDLTrace`): a C++ `double` is an
  element of a linearly ordered field `α`, instantiated with the real numbers,
  and arithmetic is exact.  An operation evaluated outside its real domain
  (division by zero, square root of a negative number) makes the run yield
  `none`; in IEEE arithmetic such an operation does not trap, it produces an
  infinity or a NaN which is returned like any other double.  `sqrt`, `sin`,
  `sinh` come from a `Libm` record, instantiated with the real functions.
* The binary64 embedding (`calculateDL64`, `calculateDLTrace64`): a `double` is
  a `Dbl` (signed finite numbers with signed zeros, infinities, NaN) and every
  operation is the exact one followed by rounding to nearest, ties to even,
  with 53 significant bits, gradual underflow and overflow to infinity.  The
  operations are evaluated one by one in the order the source writes them (no
  fused multiply-add, no extended precision); `sqrt` is correctly rounded;
  `sin` and `sinh` are taken as correctly rounded, the theorems using only
  their values at zeros and NaN.

In both, `pow(x, 2)` is the product `x * x`, `fabs`/`abs` is the absolute
value, and the `int` loop counter is a natural number converted where the
source converts it to `double`.
-/

namespace LumDist

/-- The `<cmath>` functions called by `calculateDL`. -/
structure Libm (α : Type) where
  /-- Square root, called on non-negative arguments only (see `fsqrt`). -/
  sqrt : α → α
  /-- Sine. -/
  sin : α → α
  /-- Hyperbolic sine. -/
  sinh : α → α

/-- The values of the local variables of `calculateDL` when it reaches `return DL`. -/
structure Locals (α : Type) where
  /-- Radiation density, line 15. -/
  OmegaR : α
  /-- Curvature density, line 17. -/
  OmegaK : α
  /-- Scale factor, line 18. -/
  az : α
  /-- Radial comoving distance after line 28. -/
  DCMR : α
  /-- Transverse comoving distance after lines 30-39. -/
  DCMT : α
  /-- Angular distance, line 40. -/
  DA : α
  /-- Luminosity distance, line 41. -/
  DL : α

/-- Outcome of a call of a C++ function of type `double f(double)`: the call
either hands a double back to its caller (`none` standing for an infinity or a
NaN, see the header) or leaves by an exception. -/
inductive Outcome (α : Type) where
  /-- The call returned normally. -/
  | returned (d : Option α)
  /-- The call threw an exception carrying the message `what`. -/
  | thrown (what : String)

section Program

variable {α : Type} [LinearOrderedField α]

/-- Division `x / y` of doubles, undefined on a zero divisor. -/
def fdiv (x y : α) : Option α :=
  if y = 0 then none else some (x / y)

/-- The call `sqrt(x)`, undefined on a negative argument. -/
def fsqrt (m : Libm α) (x : α) : Option α :=
  if x < 0 then none else some (m.sqrt x)

/-- The loop `for (int i = start; i < n; ++i) acc = body(i, acc);`, entered with
`i` and `acc`. -/
def forLoop (n : Nat) (body : Nat → α → Option α) (i : Nat) (acc : α) : Option α :=
  if i < n then
    match body i acc with
    | none => none
    | some acc1 => forLoop n body (i + 1) acc1
  else some acc
termination_by n - i

/-- Line 15: `OmegaR = 4.165E-5 / pow(h, 2)` with `h = H0 / 100` (line 13). -/
def radiationDensity (H0 : α) : Option α := do
  let h ← fdiv H0 100
  fdiv 4.165E-5 (h ^ 2)

/-- Line 17: `OmegaK = 1 - OmegaM - OmegaR - OmegaV`. -/
def curvatureDensity (OmegaM OmegaR OmegaV : α) : α :=
  1 - OmegaM - OmegaR - OmegaV

/-- Line 24: `a = az + (1.0 - az) * (i + 0.5) / n`. -/
def midpoint (az : α) (n i : Nat) : Option α := do
  let t ← fdiv ((1.0 - az) * ((i : α) + 0.5)) (n : α)
  pure (az + t)

/-- The argument of `sqrt` on line 25:
`OmegaK + (OmegaM / a) + (OmegaR / pow(a,2)) + (OmegaV * pow(a,2))`. -/
def radicand (OmegaK OmegaM OmegaR OmegaV a : α) : Option α := do
  let q1 ← fdiv OmegaM a
  let q2 ← fdiv OmegaR (a ^ 2)
  pure (OmegaK + q1 + q2 + OmegaV * a ^ 2)

/-- Lines 24-26, the body of the integration loop: the new value of `DCMR`. -/
def loopBody (m : Libm α) (OmegaK OmegaM OmegaR OmegaV az : α) (n i : Nat) (DCMR : α) :
    Option α := do
  let a ← midpoint az n i
  let r ← radicand OmegaK OmegaM OmegaR OmegaV a
  let adot ← fsqrt m r
  let q ← fdiv 1.0 (a * adot)
  pure (DCMR + q)

/-- Lines 20-28: the loop started at `i = 1` with `DCMR = 0.0`, followed by
`DCMR = (1 - az) * DCMR / n`. -/
def integrateDCMR (m : Libm α) (OmegaK OmegaM OmegaR OmegaV az : α) (n : Nat) : Option α := do
  let DCMR ← forLoop n (loopBody m OmegaK OmegaM OmegaR OmegaV az n) 1 0.0
  fdiv ((1 - az) * DCMR) (n : α)

/-- Lines 30-39: the transverse comoving distance from `OmegaK` and `DCMR`. -/
def curvatureTransform (m : Libm α) (OmegaK DCMR : α) : Option α :=
  if OmegaK < 0.0 then do
    let SOmegaK ← fsqrt m |OmegaK|
    fdiv (m.sin (SOmegaK * DCMR)) SOmegaK
  else if OmegaK > 0.0 then do
    let SOmegaK ← fsqrt m |OmegaK|
    fdiv (m.sinh (SOmegaK * DCMR)) SOmegaK
  else
    pure DCMR

/-- The body of `calculateDL` (lines 11-42) with the constants `c`, `H0`,
`OmegaM`, `OmegaV` of lines 11, 12, 14, 16 taken as parameters; it yields every
local variable, `DL` being the one returned. -/
def calculateDLLocals (m : Libm α) (c H0 OmegaM OmegaV z : α) : Option (Locals α) := do
  let OmegaR ← radiationDensity H0
  let OmegaK := curvatureDensity OmegaM OmegaR OmegaV
  let az ← fdiv 1 (1 + z)
  let n : Nat := 10000
  let DCMR ← integrateDCMR m OmegaK OmegaM OmegaR OmegaV az n
  let DCMT ← curvatureTransform m OmegaK DCMR
  let cH ← fdiv c H0
  let DA := cH * (az * DCMT)
  let DL ← fdiv DA (az ^ 2)
  pure { OmegaR := OmegaR, OmegaK := OmegaK, az := az, DCMR := DCMR, DCMT := DCMT,
         DA := DA, DL := DL }

/-- The local variables of `calculateDL(z)` with the constants of the source:
`c = 299792.458`, `H0 = 70.0`, `OmegaM = 0.3`, `OmegaV = 0.7`. -/
def calculateDLTrace (m : Libm α) (z : α) : Option (Locals α) :=
  calculateDLLocals m 299792.458 70.0 0.3 0.7 z

/-- The function `double calculateDL(double z)`: the value of `DL` it returns. -/
def calculateDL (m : Libm α) (z : α) : Option α :=
  (calculateDLTrace m z).map Locals.DL

/-- A call `calculateDL(z)` as its caller sees it.  The body contains no `throw`
and calls only `pow`, `sqrt`, `fabs`, `abs`, `sin`, `sinh`, none of which
throws, so the call always returns. -/
def calculateDLCall (m : Libm α) (z : α) : Outcome α :=
  Outcome.returned (calculateDL m z)

end Program

/-- The real-number interpretation of `<cmath>`. -/
noncomputable def realLibm : Libm ℝ where
  sqrt := Real.sqrt
  sin := Real.sin
  sinh := Real.sinh

section RealModel

open Finset

/-- Spec, section 4.2 step 2: the midpoint `a_i = az + (1 − az)·(i + 0.5)/N`. -/
noncomputable def specMidpoint (az : ℝ) (N i : ℕ) : ℝ :=
  az + (1 - az) * ((i : ℝ) + 0.5) / (N : ℝ)

/-- Spec, section 4.2 step 2: `adot(a) = sqrt(ΩK + ΩM/a + ΩR/a² + ΩV·a²)`. -/
noncomputable def specAdot (OmegaK OmegaM OmegaR OmegaV a : ℝ) : ℝ :=
  Real.sqrt (OmegaK + OmegaM / a + OmegaR / a ^ 2 + OmegaV * a ^ 2)

/-- Spec, section 4.2 step 2: the accumulated quantity `1 / (a_i · adot(a_i))`. -/
noncomputable def specTerm (OmegaK OmegaM OmegaR OmegaV az : ℝ) (N i : ℕ) : ℝ :=
  1 / (specMidpoint az N i * specAdot OmegaK OmegaM OmegaR OmegaV (specMidpoint az N i))

/-- Spec, section 4.2 step 2 in the reference behaviour:
`DCMR = (1 − az)/N · Σ_{i = 1..N−1} 1/(a_i · adot(a_i))`. -/
noncomputable def specDCMR (OmegaK OmegaM OmegaR OmegaV az : ℝ) (N : ℕ) : ℝ :=
  (1 - az) / (N : ℝ) * ∑ i in Icc 1 (N - 1), specTerm OmegaK OmegaM OmegaR OmegaV az N i

/-- The values the local variables of `calculateDL(z)` take in exact arithmetic,
written without the loop. -/
noncomputable def closedLocals (z : ℝ) : Locals ℝ where
  OmegaR := 0.000085
  OmegaK := -0.000085
  az := 1 / (1 + z)
  DCMR := specDCMR (-0.000085) 0.3 0.000085 0.7 (1 / (1 + z)) 10000
  DCMT := Real.sin (Real.sqrt 0.000085
      * specDCMR (-0.000085) 0.3 0.000085 0.7 (1 / (1 + z)) 10000) / Real.sqrt 0.000085
  DA := 299792.458 / 70.0 * (1 / (1 + z) * (Real.sin (Real.sqrt 0.000085
      * specDCMR (-0.000085) 0.3 0.000085 0.7 (1 / (1 + z)) 10000) / Real.sqrt 0.000085))
  DL := 299792.458 / 70.0 * (1 / (1 + z) * (Real.sin (Real.sqrt 0.000085
      * specDCMR (-0.000085) 0.3 0.000085 0.7 (1 / (1 + z)) 10000) / Real.sqrt 0.000085))
      / (1 / (1 + z)) ^ 2

/-- The square of the denominator `a * adot(a)` of line 26, as a polynomial in `a`. -/
noncomputable def denomSq (a : ℝ) : ℝ :=
  -0.000085 * a ^ 2 + 0.3 * a + 0.000085 + 0.7 * a ^ 4

end RealModel

section Binary64

/-- An IEEE-754 binary64 datum: a finite number with its sign bit and magnitude
(`mag = 0` gives the two signed zeros), an infinity with its sign bit, or a NaN. -/
inductive Dbl where
  /-- A finite double of value `(-1)^neg * mag`. -/
  | num (neg : Bool) (mag : ℝ)
  /-- An infinity. -/
  | inf (neg : Bool)
  /-- A NaN. -/
  | nan

namespace Dbl

/-- The real number a finite double stands for. -/
noncomputable def val (neg : Bool) (mag : ℝ) : ℝ :=
  if neg then -mag else mag

/-- Round a real to the nearest integer, ties to the even one. -/
noncomputable def roundHalfEven (r : ℝ) : ℤ :=
  if r - ⌊r⌋ < 1 / 2 then ⌊r⌋
  else if 1 / 2 < r - ⌊r⌋ then ⌊r⌋ + 1
  else if Even ⌊r⌋ then ⌊r⌋ else ⌊r⌋ + 1

/-- Exponent of the unit in the last place of the binade of `r > 0`: 53
significant bits, subnormal below `2^-1022`. -/
noncomputable def quantum (r : ℝ) : ℤ :=
  max (Int.log 2 r - 52) (-1074)

/-- The multiple of the quantum nearest to `r > 0`, ties to even. -/
noncomputable def nearest (r : ℝ) : ℝ :=
  (roundHalfEven (r / (2 : ℝ) ^ quantum r) : ℝ) * (2 : ℝ) ^ quantum r

/-- Rounding to nearest-even of the exact result of magnitude `r ≥ 0` and sign
`neg`: a signed zero when the result is zero or underflows, an infinity when the
rounded magnitude reaches `2^1024`. -/
noncomputable def round (neg : Bool) (r : ℝ) : Dbl :=
  if r = 0 then num neg 0
  else if (2 : ℝ) ^ (1024 : ℤ) ≤ nearest r then inf neg
  else num neg (nearest r)

/-- A non-negative decimal literal of the source, converted to the nearest double. -/
noncomputable def lit (r : ℝ) : Dbl :=
  round false r

/-- Conversion of a non-negative `int` to `double`. -/
noncomputable def ofNat (i : ℕ) : Dbl :=
  round false (i : ℝ)

/-- Unary minus. -/
def neg : Dbl → Dbl
  | num s a => num (!s) a
  | inf s => inf (!s)
  | nan => nan

/-- The call `fabs(x)`. -/
def fabs : Dbl → Dbl
  | num _ a => num false a
  | inf _ => inf false
  | nan => nan

/-- Addition `x + y`. -/
noncomputable def add : Dbl → Dbl → Dbl
  | nan, _ => nan
  | _, nan => nan
  | inf s, inf t => if s = t then inf s else nan
  | inf s, num _ _ => inf s
  | num _ _, inf t => inf t
  | num s a, num t b =>
    if val s a + val t b = 0 then num (s && t) 0
    else round (decide (val s a + val t b < 0)) |val s a + val t b|

/-- Subtraction `x - y`. -/
noncomputable def sub (x y : Dbl) : Dbl :=
  add x (neg y)

/-- Multiplication `x * y`. -/
noncomputable def mul : Dbl → Dbl → Dbl
  | nan, _ => nan
  | _, nan => nan
  | inf s, inf t => inf (xor s t)
  | inf s, num t b => if b = 0 then nan else inf (xor s t)
  | num s a, inf t => if a = 0 then nan else inf (xor s t)
  | num s a, num t b => round (xor s t) (a * b)

/-- Division `x / y`. -/
noncomputable def div : Dbl → Dbl → Dbl
  | nan, _ => nan
  | _, nan => nan
  | inf _, inf _ => nan
  | inf s, num t _ => inf (xor s t)
  | num s _, inf t => num (xor s t) 0
  | num s a, num t b =>
    if b = 0 then (if a = 0 then nan else inf (xor s t))
    else round (xor s t) (a / b)

/-- The call `sqrt(x)`, correctly rounded. -/
noncomputable def sqrt : Dbl → Dbl
  | nan => nan
  | inf s => if s then nan else inf false
  | num s a => if a = 0 then num s 0 else if s then nan else round false (Real.sqrt a)

/-- The call `sin(x)`, taken as correctly rounded. -/
noncomputable def sin : Dbl → Dbl
  | nan => nan
  | inf _ => nan
  | num s a =>
    if a = 0 then num s 0
    else round (decide (Real.sin (val s a) < 0)) |Real.sin (val s a)|

/-- The call `sinh(x)`, taken as correctly rounded. -/
noncomputable def sinh : Dbl → Dbl
  | nan => nan
  | inf s => inf s
  | num s a =>
    if a = 0 then num s 0
    else round (decide (Real.sinh (val s a) < 0)) |Real.sinh (val s a)|

/-- The comparison `x < y`: false when either side is a NaN, and the two zeros
compare equal. -/
noncomputable def lt : Dbl → Dbl → Bool
  | num s a, num t b => decide (val s a < val t b)
  | num _ _, inf t => !t
  | inf s, num _ _ => s
  | inf s, inf t => s && !t
  | nan, _ => false
  | _, nan => false

end Dbl

/-- Line 24 in binary64. -/
noncomputable def midpoint64 (az : Dbl) (n i : ℕ) : Dbl :=
  Dbl.add az (Dbl.div (Dbl.mul (Dbl.sub (Dbl.lit 1.0) az) (Dbl.add (Dbl.ofNat i) (Dbl.lit 0.5)))
    (Dbl.ofNat n))

/-- The argument of `sqrt` on line 25 in binary64, `pow(a,2)` being the rounded
product `a * a`. -/
noncomputable def radicand64 (OmegaK OmegaM OmegaR OmegaV a : Dbl) : Dbl :=
  Dbl.add (Dbl.add (Dbl.add OmegaK (Dbl.div OmegaM a)) (Dbl.div OmegaR (Dbl.mul a a)))
    (Dbl.mul OmegaV (Dbl.mul a a))

/-- Lines 24-26 in binary64: the new value of `DCMR`. -/
noncomputable def loopBody64 (OmegaK OmegaM OmegaR OmegaV az : Dbl) (n i : ℕ) (DCMR : Dbl) :
    Dbl :=
  Dbl.add DCMR (Dbl.div (Dbl.lit 1.0) (Dbl.mul (midpoint64 az n i)
    (Dbl.sqrt (radicand64 OmegaK OmegaM OmegaR OmegaV (midpoint64 az n i)))))

/-- The loop `for (int i = start; i < n; ++i) acc = body(i, acc);` on doubles. -/
noncomputable def forLoop64 (n : ℕ) (body : ℕ → Dbl → Dbl) (i : ℕ) (acc : Dbl) : Dbl :=
  if i < n then forLoop64 n body (i + 1) (body i acc) else acc
termination_by n - i

/-- Lines 20-28 in binary64. -/
noncomputable def integrateDCMR64 (OmegaK OmegaM OmegaR OmegaV az : Dbl) (n : ℕ) : Dbl :=
  Dbl.div (Dbl.mul (Dbl.sub (Dbl.ofNat 1) az)
    (forLoop64 n (loopBody64 OmegaK OmegaM OmegaR OmegaV az n) 1 (Dbl.lit 0.0))) (Dbl.ofNat n)

/-- Lines 30-39 in binary64. -/
noncomputable def curvatureTransform64 (OmegaK DCMR : Dbl) : Dbl :=
  if Dbl.lt OmegaK (Dbl.lit 0.0) then
    Dbl.div (Dbl.sin (Dbl.mul (Dbl.sqrt (Dbl.fabs OmegaK)) DCMR)) (Dbl.sqrt (Dbl.fabs OmegaK))
  else if Dbl.lt (Dbl.lit 0.0) OmegaK then
    Dbl.div (Dbl.sinh (Dbl.mul (Dbl.sqrt (Dbl.fabs OmegaK)) DCMR)) (Dbl.sqrt (Dbl.fabs OmegaK))
  else DCMR

/-- Lines 13 and 15 in binary64. -/
noncomputable def radiationDensity64 (H0 : Dbl) : Dbl :=
  Dbl.div (Dbl.lit 4.165E-5) (Dbl.mul (Dbl.div H0 (Dbl.ofNat 100)) (Dbl.div H0 (Dbl.ofNat 100)))

/-- Line 17 in binary64. -/
noncomputable def curvatureDensity64 (OmegaM OmegaR OmegaV : Dbl) : Dbl :=
  Dbl.sub (Dbl.sub (Dbl.sub (Dbl.ofNat 1) OmegaM) OmegaR) OmegaV

/-- The body of `calculateDL` (lines 11-42) in binary64: every operation is the
exact one followed by rounding to nearest-even, in the order the source writes
them. -/
noncomputable def calculateDLLocals64 (c H0 OmegaM OmegaV z : Dbl) : Locals Dbl :=
  let OmegaR := radiationDensity64 H0
  let OmegaK := curvatureDensity64 OmegaM OmegaR OmegaV
  let az := Dbl.div (Dbl.ofNat 1) (Dbl.add (Dbl.ofNat 1) z)
  let DCMR := integrateDCMR64 OmegaK OmegaM OmegaR OmegaV az 10000
  let DCMT := curvatureTransform64 OmegaK DCMR
  let DA := Dbl.mul (Dbl.div c H0) (Dbl.mul az DCMT)
  let DL := Dbl.div DA (Dbl.mul az az)
  { OmegaR := OmegaR, OmegaK := OmegaK, az := az, DCMR := DCMR, DCMT := DCMT, DA := DA,
    DL := DL }

/-- The local variables of `calculateDL(z)` in binary64 with the constants of the
source. -/
noncomputable def calculateDLTrace64 (z : Dbl) : Locals Dbl :=
  calculateDLLocals64 (Dbl.lit 299792.458) (Dbl.lit 70.0) (Dbl.lit 0.3) (Dbl.lit 0.7) z

/-- The function `double calculateDL(double z)` in binary64. -/
noncomputable def calculateDL64 (z : Dbl) : Dbl :=
  (calculateDLTrace64 z).DL

end Binary64

section Lemmas

open Finset

variable {α : Type} [LinearOrderedField α]

theorem fdiv_of_ne {x y : α} (h : y ≠ 0) : fdiv x y = some (x / y) := by
  simp [fdiv, h]

theorem fdiv_zero_right (x : α) : fdiv x 0 = none := by
  simp [fdiv]

theorem fsqrt_of_nonneg (m : Libm α) {x : α} (h : 0 ≤ x) : fsqrt m x = some (m.sqrt x) := by
  simp [fsqrt, not_lt.mpr h]

/-- A loop whose body adds `t i` to the accumulator at every index it visits
returns the accumulator plus the sum of `t` over the visited indices. -/
theorem forLoop_eq_sum (n : Nat) (body : Nat → α → Option α) (t : Nat → α) :
    ∀ (k i : Nat) (acc : α), n - i = k →
      (∀ j, i ≤ j → j < n → ∀ s, body j s = some (s + t j)) →
      forLoop n body i acc = some (acc + ∑ j in Ico i n, t j) := by
  intro k
  induction k with
  | zero =>
    intro i acc hk _
    have hi : ¬ i < n := by omega
    rw [forLoop, if_neg hi, Ico_eq_empty hi]
    simp
  | succ k ih =>
    intro i acc hk hbody
    have hi : i < n := by omega
    rw [forLoop, if_pos hi, hbody i le_rfl hi acc]
    simp only
    rw [ih (i + 1) (acc + t i) (by omega) (fun j hj hjn s => hbody j (by omega) hjn s)]
    rw [Finset.sum_eq_sum_Ico_succ_bot hi, add_assoc]

theorem midpoint_real (az : ℝ) (N i : ℕ) (hN : N ≠ 0) :
    midpoint az N i = some (specMidpoint az N i) := by
  have hN1 : (N : ℝ) ≠ 0 := Nat.cast_ne_zero.mpr hN
  simp only [midpoint, specMidpoint, fdiv_of_ne hN1, Option.bind_eq_bind, Option.some_bind,
    Option.pure_def]
  norm_num

theorem radicand_real (K M R V a : ℝ) (ha : a ≠ 0) :
    radicand K M R V a = some (K + M / a + R / a ^ 2 + V * a ^ 2) := by
  have ha2 : a ^ 2 ≠ 0 := pow_ne_zero 2 ha
  simp only [radicand, fdiv_of_ne ha, fdiv_of_ne ha2, Option.bind_eq_bind, Option.some_bind,
    Option.pure_def]

/-- One iteration of the loop adds the spec's term, provided the midpoint is
nonzero and the radicand is positive there. -/
theorem loopBody_real (K M R V az : ℝ) (N i : ℕ) (hN : N ≠ 0)
    (ha : specMidpoint az N i ≠ 0)
    (hr : 0 < K + M / specMidpoint az N i + R / specMidpoint az N i ^ 2
      + V * specMidpoint az N i ^ 2) (s : ℝ) :
    loopBody realLibm K M R V az N i s = some (s + specTerm K M R V az N i) := by
  have hs : Real.sqrt (K + M / specMidpoint az N i + R / specMidpoint az N i ^ 2
      + V * specMidpoint az N i ^ 2) ≠ 0 := (Real.sqrt_pos.mpr hr).ne'
  have hprod : specMidpoint az N i * realLibm.sqrt (K + M / specMidpoint az N i
      + R / specMidpoint az N i ^ 2 + V * specMidpoint az N i ^ 2) ≠ 0 :=
    mul_ne_zero ha hs
  simp only [loopBody, midpoint_real az N i hN, radicand_real K M R V _ ha,
    fsqrt_of_nonneg realLibm hr.le, fdiv_of_ne hprod, Option.bind_eq_bind, Option.some_bind,
    Option.pure_def, specTerm, specAdot]
  norm_num [realLibm]

/-- Lines 20-28 compute the spec's `DCMR` whenever every visited midpoint is
nonzero with a positive radicand. -/
theorem integrateDCMR_real (K M R V az : ℝ) (N : ℕ) (hN : N ≠ 0)
    (ha : ∀ i, 1 ≤ i → i < N → specMidpoint az N i ≠ 0)
    (hr : ∀ i, 1 ≤ i → i < N → 0 < K + M / specMidpoint az N i
      + R / specMidpoint az N i ^ 2 + V * specMidpoint az N i ^ 2) :
    integrateDCMR realLibm K M R V az N = some (specDCMR K M R V az N) := by
  have hN1 : (N : ℝ) ≠ 0 := Nat.cast_ne_zero.mpr hN
  have hloop := forLoop_eq_sum N (loopBody realLibm K M R V az N) (specTerm K M R V az N)
    (N - 1) 1 (0.0 : ℝ) rfl
    (fun j hj hjN s => loopBody_real K M R V az N j hN (ha j hj hjN) (hr j hj hjN) s)
  have hIco : Ico 1 N = Icc 1 (N - 1) := by
    ext j
    simp only [mem_Ico, mem_Icc]
    omega
  simp only [integrateDCMR, hloop, fdiv_of_ne hN1, Option.bind_eq_bind, Option.some_bind,
    specDCMR, hIco]
  congr 1
  norm_num
  ring

/-- Line 15 with `H0 = 70.0`: the radiation density is `0.000085`. -/
theorem radiationDensity_builtin : radiationDensity (70.0 : ℝ) = some 0.000085 := by
  have h1 : (100 : ℝ) ≠ 0 := by norm_num
  have h2 : ((70.0 : ℝ) / 100) ^ 2 ≠ 0 := by norm_num
  simp only [radiationDensity, fdiv_of_ne h1, fdiv_of_ne h2, Option.bind_eq_bind,
    Option.some_bind]
  norm_num

/-- Line 17 with the constants of the source: the curvature density is `-0.000085`. -/
theorem curvatureDensity_builtin : curvatureDensity (0.3 : ℝ) 0.000085 0.7 = -0.000085 := by
  norm_num [curvatureDensity]

/-- With the constants of the source the radicand of line 25 is positive at every
positive scale factor. -/
theorem radicand_pos_builtin (a : ℝ) (ha : 0 < a) :
    0 < (-0.000085 : ℝ) + 0.3 / a + 0.000085 / a ^ 2 + 0.7 * a ^ 2 := by
  have h2 : 0 < (0.000085 : ℝ) / a ^ 2 := by positivity
  have h3 : 0 < (0.3 : ℝ) / a := by positivity
  have h4 : 0 ≤ (0.7 : ℝ) * a ^ 2 := by positivity
  rcases le_total a 1 with h | h
  · have h5 : (0.3 : ℝ) ≤ 0.3 / a := by
      rw [le_div_iff₀ ha]
      nlinarith
    linarith
  · have h5 : (0.7 : ℝ) ≤ 0.7 * a ^ 2 := by nlinarith
    linarith

/-- Lines 31-33 with `OmegaK = -0.000085`: the closed branch. -/
theorem curvatureTransform_builtin (x : ℝ) :
    curvatureTransform realLibm (-0.000085) x
      = some (Real.sin (Real.sqrt 0.000085 * x) / Real.sqrt 0.000085) := by
  have hK : (-0.000085 : ℝ) < 0.0 := by norm_num
  have habs : |(-0.000085 : ℝ)| = 0.000085 := by norm_num [abs_of_neg]
  have hS : Real.sqrt 0.000085 ≠ 0 := (Real.sqrt_pos.mpr (by norm_num)).ne'
  have hS1 : realLibm.sqrt 0.000085 ≠ 0 := hS
  have hnn : (0 : ℝ) ≤ 0.000085 := by norm_num
  simp only [curvatureTransform, if_pos hK, habs, fsqrt_of_nonneg realLibm hnn,
    fdiv_of_ne hS1, Option.bind_eq_bind, Option.some_bind]
  rfl

end Lemmas

section ClosedForm

/-- If `1 + z` is not zero and every midpoint the loop visits is positive, no
operation of `calculateDL(z)` is undefined and the local variables take their
closed-form values. -/
theorem calculateDLTrace_real (z : ℝ) (hz : 1 + z ≠ 0)
    (hpos : ∀ i, 1 ≤ i → i < 10000 → 0 < specMidpoint (1 / (1 + z)) 10000 i) :
    calculateDLTrace realLibm z = some (closedLocals z) := by
  have haz : (1 : ℝ) / (1 + z) ≠ 0 := one_div_ne_zero hz
  have haz2 : ((1 : ℝ) / (1 + z)) ^ 2 ≠ 0 := pow_ne_zero 2 haz
  have hH : (70.0 : ℝ) ≠ 0 := by norm_num
  have hint := integrateDCMR_real (-0.000085) 0.3 0.000085 0.7 (1 / (1 + z)) 10000 (by norm_num)
    (fun i h1 h2 => (hpos i h1 h2).ne')
    (fun i h1 h2 => radicand_pos_builtin _ (hpos i h1 h2))
  simp only [calculateDLTrace, calculateDLLocals, radiationDensity_builtin,
    curvatureDensity_builtin, fdiv_of_ne hz, hint, curvatureTransform_builtin, fdiv_of_ne hH,
    fdiv_of_ne haz2, Option.bind_eq_bind, Option.some_bind, Option.pure_def, closedLocals]

/-- The midpoints lie strictly between `az` and `1`: they are positive when `az` is. -/
theorem specMidpoint_pos (az : ℝ) (N i : ℕ) (haz : 0 < az) (hi : i < N) :
    0 < specMidpoint az N i := by
  have hN : (0 : ℝ) < N := by
    have : 0 < N := by omega
    exact_mod_cast this
  have hiN : (i : ℝ) + 1 ≤ N := by exact_mod_cast hi
  have ht0 : 0 < ((i : ℝ) + 0.5) / N := by positivity
  have ht1 : ((i : ℝ) + 0.5) / N < 1 := by
    rw [div_lt_one hN]
    norm_num
    linarith
  have hrw : specMidpoint az N i
      = az * (1 - ((i : ℝ) + 0.5) / N) + ((i : ℝ) + 0.5) / N := by
    unfold specMidpoint
    ring
  rw [hrw]
  have : 0 < az * (1 - ((i : ℝ) + 0.5) / N) := mul_pos haz (by linarith)
  linarith

/-- For `z > -1` no operation of `calculateDL(z)` is undefined. -/
theorem calculateDLTrace_of_gt (z : ℝ) (hz : -1 < z) :
    calculateDLTrace realLibm z = some (closedLocals z) := by
  have h1 : 0 < 1 + z := by linarith
  exact calculateDLTrace_real z h1.ne'
    (fun i _ h2 => specMidpoint_pos _ _ _ (one_div_pos.mpr h1) h2)

theorem specTerm_eq_denomSq (az : ℝ) (N i : ℕ) (ha : 0 < specMidpoint az N i) :
    specTerm (-0.000085) 0.3 0.000085 0.7 az N i
      = 1 / Real.sqrt (denomSq (specMidpoint az N i)) := by
  unfold specTerm specAdot denomSq
  congr 1
  rw [← Real.sqrt_sq ha.le, ← Real.sqrt_mul (sq_nonneg _), Real.sqrt_sq ha.le]
  congr 1
  field_simp
  ring

theorem specMidpoint_le_one (az : ℝ) (N i : ℕ) (haz : az ≤ 1) (hi : i < N) :
    specMidpoint az N i ≤ 1 := by
  have hN : (0 : ℝ) < N := by
    have : 0 < N := by omega
    exact_mod_cast this
  have ht0 : 0 ≤ ((i : ℝ) + 0.5) / N := by positivity
  have hrw : specMidpoint az N i = 1 - (1 - az) * (1 - ((i : ℝ) + 0.5) / N) := by
    unfold specMidpoint
    ring
  have hiN : (i : ℝ) + 1 ≤ N := by exact_mod_cast hi
  have ht1 : ((i : ℝ) + 0.5) / N ≤ 1 := by
    rw [div_le_one hN]
    norm_num
    linarith
  rw [hrw]
  nlinarith [mul_nonneg (sub_nonneg.mpr haz) (sub_nonneg.mpr ht1)]

/-- For a positive `1 + z` the returned `DL` is `(c/H0) * (1 + z) * DCMT`. -/
theorem closedLocals_DL_eq (z : ℝ) (hz : 0 < 1 + z) :
    (closedLocals z).DL = 299792.458 / 70.0 * (1 + z) * (closedLocals z).DCMT := by
  simp only [closedLocals]
  generalize Real.sin (Real.sqrt 0.000085
    * specDCMR (-0.000085) 0.3 0.000085 0.7 (1 / (1 + z)) 10000) / Real.sqrt 0.000085 = T
  have h1 : 1 + z ≠ 0 := hz.ne'
  field_simp
  ring

theorem denomSq_pos (a : ℝ) (h0 : 0 ≤ a) (h1 : a ≤ 1) : 0 < denomSq a := by
  unfold denomSq
  have h4 : 0 ≤ a ^ 4 := by positivity
  nlinarith [mul_nonneg h0 (sub_nonneg.mpr h1)]

/-- Near `a = 1` the term `1/(a * adot(a))` lies between `1 + (1 - a)` and
`1 + 2 (1 - a)`. -/
theorem specTerm_linear_bounds (az : ℝ) (N i : ℕ) (h0 : 0.97 ≤ specMidpoint az N i)
    (h1 : specMidpoint az N i ≤ 1) :
    1 + (1 - specMidpoint az N i) ≤ specTerm (-0.000085) 0.3 0.000085 0.7 az N i ∧
    specTerm (-0.000085) 0.3 0.000085 0.7 az N i ≤ 1 + 2 * (1 - specMidpoint az N i) := by
  have ha : 0 < specMidpoint az N i := by linarith
  rw [specTerm_eq_denomSq az N i ha]
  generalize specMidpoint az N i = a at h0 h1 ha
  have hu : 0 ≤ 1 - a := by linarith
  have hu1 : 1 - a ≤ 0.03 := by linarith
  have hg : 0 < denomSq a := denomSq_pos a ha.le h1
  have hsq : 0 < Real.sqrt (denomSq a) := Real.sqrt_pos.mpr hg
  have hP1 : denomSq a * (1 + (1 - a)) ^ 2 ≤ 1 := by
    unfold denomSq
    nlinarith [mul_nonneg hu hu, mul_nonneg hu (mul_nonneg hu hu),
      mul_nonneg (mul_nonneg hu hu) (mul_nonneg hu hu), mul_nonneg hu (sub_nonneg.mpr hu1),
      pow_nonneg hu 5, pow_nonneg hu 6]
  have hP2 : 1 ≤ denomSq a * (1 + 2 * (1 - a)) ^ 2 := by
    unfold denomSq
    nlinarith [mul_nonneg hu hu, mul_nonneg hu (mul_nonneg hu hu),
      mul_nonneg (mul_nonneg hu hu) (mul_nonneg hu hu), mul_nonneg hu (sub_nonneg.mpr hu1),
      pow_nonneg hu 5, pow_nonneg hu 6]
  have hb1 : (0 : ℝ) < 1 + (1 - a) := by linarith
  have hb2 : (0 : ℝ) < 1 + 2 * (1 - a) := by linarith
  constructor
  · rw [le_div_iff₀ hsq]
    have h3 : Real.sqrt (denomSq a * (1 + (1 - a)) ^ 2) ≤ Real.sqrt 1 := Real.sqrt_le_sqrt hP1
    rw [Real.sqrt_mul hg.le, Real.sqrt_sq hb1.le, Real.sqrt_one] at h3
    linarith
  · rw [div_le_iff₀ hsq]
    have h3 : Real.sqrt 1 ≤ Real.sqrt (denomSq a * (1 + 2 * (1 - a)) ^ 2) :=
      Real.sqrt_le_sqrt hP2
    rw [Real.sqrt_mul hg.le, Real.sqrt_sq hb2.le, Real.sqrt_one] at h3
    linarith

/-- Gauss sum of the half-integer nodes of the loop. -/
theorem sum_nodes (n : ℕ) (hn : 1 ≤ n) :
    ∑ i in Finset.Ico 1 n, ((i : ℝ) + 0.5) = ((n : ℝ) ^ 2 - 1) / 2 := by
  induction n, hn using Nat.le_induction with
  | base => simp
  | succ k hk ih =>
    rw [Finset.sum_Ico_succ_top hk, ih]
    push_cast
    ring

/-- The distances `1 - a_i` of the `9999` visited midpoints from `1` add up to
`(1 - az) * 4999.00005`. -/
theorem sum_one_sub_specMidpoint (az : ℝ) :
    ∑ i in Finset.Icc 1 (10000 - 1), (1 - specMidpoint az 10000 i)
      = (1 - az) * 4999.00005 := by
  have hIco : Finset.Icc 1 (10000 - 1) = Finset.Ico 1 10000 := by
    ext j
    simp only [Finset.mem_Ico, Finset.mem_Icc]
    omega
  have hrw : ∀ i : ℕ, 1 - specMidpoint az 10000 i
      = (1 - az) - (1 - az) / 10000 * ((i : ℝ) + 0.5) := by
    intro i
    unfold specMidpoint
    push_cast
    ring
  simp only [hrw]
  rw [Finset.sum_sub_distrib, ← Finset.mul_sum, hIco, sum_nodes 10000 (by norm_num)]
  simp only [Finset.sum_const, Nat.card_Ico, nsmul_eq_mul]
  norm_num
  ring

/-- For a scale factor in `[0.97, 1]` the value of `DCMR` lies between the two
quadratic expressions in `w = 1 - az` obtained from the linear bounds of the
terms. -/
theorem specDCMR_bounds (az : ℝ) (h0 : 0.97 ≤ az) (h1 : az ≤ 1) :
    (1 - az) / 10000 * (9999 + (1 - az) * 4999.00005)
      ≤ specDCMR (-0.000085) 0.3 0.000085 0.7 az 10000 ∧
    specDCMR (-0.000085) 0.3 0.000085 0.7 az 10000
      ≤ (1 - az) / 10000 * (9999 + 2 * ((1 - az) * 4999.00005)) := by
  have hmid : ∀ i ∈ Finset.Icc 1 (10000 - 1),
      0.97 ≤ specMidpoint az 10000 i ∧ specMidpoint az 10000 i ≤ 1 := by
    intro i hi
    rw [Finset.mem_Icc] at hi
    refine ⟨?_, specMidpoint_le_one az 10000 i h1 (by omega)⟩
    have ht : 0 ≤ (1 - az) * ((i : ℝ) + 0.5) / ((10000 : ℕ) : ℝ) := by
      apply div_nonneg (mul_nonneg (by linarith) (by positivity))
      norm_num
    unfold specMidpoint
    linarith
  have hcard : ∑ _i in Finset.Icc 1 (10000 - 1), (1 : ℝ) = 9999 := by
    simp
  have hlo : ∑ i in Finset.Icc 1 (10000 - 1), (1 + (1 - specMidpoint az 10000 i))
      ≤ ∑ i in Finset.Icc 1 (10000 - 1),
        specTerm (-0.000085) 0.3 0.000085 0.7 az 10000 i :=
    Finset.sum_le_sum (fun i hi =>
      (specTerm_linear_bounds az 10000 i (hmid i hi).1 (hmid i hi).2).1)
  have hhi : ∑ i in Finset.Icc 1 (10000 - 1),
        specTerm (-0.000085) 0.3 0.000085 0.7 az 10000 i
      ≤ ∑ i in Finset.Icc 1 (10000 - 1), (1 + 2 * (1 - specMidpoint az 10000 i)) :=
    Finset.sum_le_sum (fun i hi =>
      (specTerm_linear_bounds az 10000 i (hmid i hi).1 (hmid i hi).2).2)
  rw [Finset.sum_add_distrib, hcard, sum_one_sub_specMidpoint] at hlo
  rw [Finset.sum_add_distrib, hcard, ← Finset.mul_sum, sum_one_sub_specMidpoint] at hhi
  have hw : 0 ≤ (1 - az) / 10000 := by
    apply div_nonneg (by linarith)
    norm_num
  unfold specDCMR
  have hc : ((10000 : ℕ) : ℝ) = 10000 := by norm_num
  rw [hc]
  exact ⟨mul_le_mul_of_nonneg_left hlo hw, mul_le_mul_of_nonneg_left hhi hw⟩

/-- Bounds on the transverse distance of lines 31-33 for a small positive radial
distance `x`: `x - 0.000085 x³ / 4 ≤ sin(S x)/S ≤ x` with `S = sqrt 0.000085`. -/
theorem transverse_bounds (x : ℝ) (hx : 0 < x) (hx1 : x ≤ 1) :
    x - 0.000085 * x ^ 3 / 4 ≤ Real.sin (Real.sqrt 0.000085 * x) / Real.sqrt 0.000085 ∧
    Real.sin (Real.sqrt 0.000085 * x) / Real.sqrt 0.000085 ≤ x := by
  have hS : 0 < Real.sqrt 0.000085 := Real.sqrt_pos.mpr (by norm_num)
  have hS2 : Real.sqrt 0.000085 ^ 2 = 0.000085 := Real.sq_sqrt (by norm_num)
  have hS1 : Real.sqrt 0.000085 ≤ 1 := by
    have h := Real.sqrt_le_sqrt (show (0.000085 : ℝ) ≤ 1 by norm_num)
    rwa [Real.sqrt_one] at h
  have hy : 0 < Real.sqrt 0.000085 * x := mul_pos hS hx
  have hy1 : Real.sqrt 0.000085 * x ≤ 1 := by nlinarith
  constructor
  · rw [le_div_iff₀ hS]
    have h := (Real.sin_gt_sub_cube hy hy1).le
    have he : (x - 0.000085 * x ^ 3 / 4) * Real.sqrt 0.000085
        = Real.sqrt 0.000085 * x - (Real.sqrt 0.000085 * x) ^ 3 / 4 := by
      have : (Real.sqrt 0.000085 * x) ^ 3
          = Real.sqrt 0.000085 ^ 2 * Real.sqrt 0.000085 * x ^ 3 := by ring
      rw [this, hS2]
      ring
    rw [he]
    exact h
  · rw [div_le_iff₀ hS, mul_comm x]
    exact (Real.sin_lt hy).le

/-- Bounds on the returned `DL` for a redshift in `(0, 0.03]`, in terms of
`w = 1 - 1/(1+z)`. -/
theorem closedLocals_DL_bounds (z : ℝ) (h0 : 0 < z) (h1 : z ≤ 0.03) :
    299792.458 / 70.0 * (1 + z) * ((1 - 0.00000004)
        * ((1 - 1 / (1 + z)) / 10000 * (9999 + (1 - 1 / (1 + z)) * 4999.00005)))
      ≤ (closedLocals z).DL ∧
    (closedLocals z).DL ≤ 299792.458 / 70.0 * (1 + z)
        * ((1 - 1 / (1 + z)) / 10000 * (9999 + 2 * ((1 - 1 / (1 + z)) * 4999.00005))) := by
  have hp : 0 < 1 + z := by linarith
  have haz1 : 1 / (1 + z) < 1 := by
    rw [div_lt_one hp]
    linarith
  have haz0 : (0.97 : ℝ) ≤ 1 / (1 + z) := by
    rw [le_div_iff₀ hp]
    nlinarith
  obtain ⟨hlo, hhi⟩ := specDCMR_bounds (1 / (1 + z)) haz0 haz1.le
  have hw0 : 0 < 1 - 1 / (1 + z) := by linarith
  have hw1 : 1 - 1 / (1 + z) ≤ 0.03 := by linarith
  have hK : (0 : ℝ) ≤ 299792.458 / 70.0 * (1 + z) := by positivity
  rw [closedLocals_DL_eq z hp]
  simp only [closedLocals]
  generalize specDCMR (-0.000085) 0.3 0.000085 0.7 (1 / (1 + z)) 10000 = x at hlo hhi
  generalize 1 - 1 / (1 + z) = w at hlo hhi hw0 hw1
  have hxlo : 0 < w / 10000 * (9999 + w * 4999.00005) := by positivity
  have hx0 : 0 < x := lt_of_lt_of_le hxlo hlo
  have hx1 : x ≤ 0.04 := by
    have : w / 10000 * (9999 + 2 * (w * 4999.00005)) ≤ 0.04 := by nlinarith
    linarith
  obtain ⟨htlo, hthi⟩ := transverse_bounds x hx0 (by linarith)
  have hx2 : x ^ 2 ≤ 0.0016 := by nlinarith
  have hx3 : x ^ 3 ≤ 0.0016 * x := by nlinarith
  constructor
  · apply mul_le_mul_of_nonneg_left _ hK
    nlinarith
  · apply mul_le_mul_of_nonneg_left _ hK
    linarith

end ClosedForm

section ExactFacts

open Finset

/-- In exact arithmetic the density budget of lines 13-17 closes: for every `H0 ≠ 0`,
`OmegaM`, `OmegaV`: `OmegaR = 4.165e-5 / (H0/100)^2` is defined, and with
`OmegaK = 1 - OmegaM - OmegaR - OmegaV` the four densities sum to `1`; the same
holds of the densities held by any run of the function body, and of the run with
the constants of the source. -/
theorem density_closure_exact (H0 OmegaM OmegaV : ℝ) (hH : H0 ≠ 0) :
    (∃ R : ℝ, radiationDensity H0 = some R ∧ R = 4.165e-5 / (H0 / 100) ^ 2 ∧
      OmegaM + R + OmegaV + curvatureDensity OmegaM R OmegaV = 1) ∧
    (∀ (c z : ℝ) (t : Locals ℝ), calculateDLLocals realLibm c H0 OmegaM OmegaV z = some t →
      t.OmegaK = 1 - OmegaM - t.OmegaR - OmegaV ∧ OmegaM + t.OmegaR + OmegaV + t.OmegaK = 1) ∧
    (∃ t : Locals ℝ, calculateDLTrace realLibm 0 = some t ∧
      (0.3 : ℝ) + t.OmegaR + 0.7 + t.OmegaK = 1) := by
  have h1 : (100 : ℝ) ≠ 0 := by norm_num
  have h2 : (H0 / 100) ^ 2 ≠ 0 := pow_ne_zero 2 (div_ne_zero hH h1)
  have hR : radiationDensity H0 = some (4.165e-5 / (H0 / 100) ^ 2) := by
    simp only [radiationDensity, fdiv_of_ne h1, fdiv_of_ne h2, Option.bind_eq_bind,
      Option.some_bind]
  refine ⟨⟨_, hR, rfl, ?_⟩, ?_, ⟨closedLocals 0, calculateDLTrace_of_gt 0 (by norm_num), ?_⟩⟩
  · unfold curvatureDensity
    ring
  · intro c z t ht
    simp only [calculateDLLocals, hR, Option.bind_eq_bind, Option.some_bind, Option.pure_def,
      Option.bind_eq_some] at ht
    obtain ⟨az, -, x, -, y, -, cH, -, DL, -, ht⟩ := ht
    have ht1 := Option.some.inj ht
    subst ht1
    simp only [curvatureDensity]
    constructor
    · trivial
    · ring
  · simp only [closedLocals]
    norm_num

end ExactFacts

section Binary64Lemmas

open Dbl

theorem roundHalfEven_eq (r : ℝ) (m : ℤ) (h : |r - m| < 1 / 2) : Dbl.roundHalfEven r = m := by
  rw [abs_lt] at h
  obtain ⟨h1, h2⟩ := h
  unfold Dbl.roundHalfEven
  rcases le_or_lt (m : ℝ) r with hle | hlt
  · have hfl : ⌊r⌋ = m := by
      rw [Int.floor_eq_iff]
      constructor
      · exact hle
      · linarith
    rw [hfl, if_pos (by linarith)]
  · have hfl : ⌊r⌋ = m - 1 := by
      rw [Int.floor_eq_iff]
      push_cast
      constructor
      · linarith
      · linarith
    rw [hfl]
    push_cast
    rw [if_neg (by linarith), if_pos (by linarith)]
    ring

theorem log_two_eq (r : ℝ) (e : ℤ) (h1 : (2 : ℝ) ^ e ≤ r) (h2 : r < (2 : ℝ) ^ (e + 1)) :
    Int.log 2 r = e := by
  have hr : 0 < r := lt_of_lt_of_le (by positivity) h1
  have ha : e ≤ Int.log 2 r := by
    rw [← Int.zpow_le_iff_le_log (by norm_num) hr]
    exact_mod_cast h1
  have hb : Int.log 2 r < e + 1 := by
    rw [← Int.lt_zpow_iff_log_lt (by norm_num) hr]
    exact_mod_cast h2
  omega

/-- At a tie the even neighbour is chosen. -/
theorem roundHalfEven_tie (r : ℝ) (m : ℤ) (h : r = m + 1 / 2) (hm : Even m) :
    Dbl.roundHalfEven r = m := by
  have hfl : ⌊r⌋ = m := by
    rw [Int.floor_eq_iff]
    constructor
    · linarith
    · linarith
  unfold Dbl.roundHalfEven
  rw [hfl, if_neg (by linarith), if_neg (by linarith), if_pos hm]

/-- Rounding of a positive magnitude `r` in the binade `[2^e, 2^(e+1))`, given
the integer `m` the scaled magnitude rounds to. -/
theorem round_eq_of (s : Bool) (r : ℝ) (e q m : ℤ) (v : ℝ) (h1 : (2 : ℝ) ^ e ≤ r)
    (h2 : r < (2 : ℝ) ^ (e + 1)) (hq : max (e - 52) (-1074) = q)
    (hm : Dbl.roundHalfEven (r / (2 : ℝ) ^ q) = m) (hv : (m : ℝ) * (2 : ℝ) ^ q = v)
    (hv2 : v < (2 : ℝ) ^ (1024 : ℤ)) : Dbl.round s r = Dbl.num s v := by
  have hr : 0 < r := lt_of_lt_of_le (by positivity) h1
  have hquant : Dbl.quantum r = q := by
    unfold Dbl.quantum
    rw [log_two_eq r e h1 h2, hq]
  have hnear : Dbl.nearest r = v := by
    unfold Dbl.nearest
    rw [hquant, hm, hv]
  unfold Dbl.round
  rw [if_neg hr.ne', hnear, if_neg (not_le.mpr hv2)]

/-- Rounding of a positive magnitude `r` in the binade `[2^e, 2^(e+1))`: the
result is the multiple `m * 2^q` of the quantum within half a quantum of `r`. -/
theorem round_eq (s : Bool) (r : ℝ) (e q m : ℤ) (v : ℝ) (h1 : (2 : ℝ) ^ e ≤ r)
    (h2 : r < (2 : ℝ) ^ (e + 1)) (hq : max (e - 52) (-1074) = q)
    (hm : |r / (2 : ℝ) ^ q - m| < 1 / 2) (hv : (m : ℝ) * (2 : ℝ) ^ q = v)
    (hv2 : v < (2 : ℝ) ^ (1024 : ℤ)) : Dbl.round s r = Dbl.num s v :=
  round_eq_of s r e q m v h1 h2 hq (roundHalfEven_eq _ m hm) hv hv2

theorem round_zero (s : Bool) : Dbl.round s 0 = Dbl.num s 0 := by
  simp [Dbl.round]

theorem ofNat_one : Dbl.ofNat 1 = Dbl.num false 1 := by
  unfold Dbl.ofNat
  exact round_eq false _ 0 (-52) (2 ^ 52) 1 (by norm_num) (by norm_num) (by decide)
    (by norm_num) (by norm_num) (by norm_num)

theorem lit_zero : Dbl.lit 0.0 = Dbl.num false 0 := by
  unfold Dbl.lit
  norm_num [round_zero]

end Binary64Lemmas

section Binary64Normal

open Dbl

theorem roundHalfEven_bounds (r : ℝ) :
    ⌊r⌋ ≤ Dbl.roundHalfEven r ∧ Dbl.roundHalfEven r ≤ ⌊r⌋ + 1 := by
  unfold Dbl.roundHalfEven
  split_ifs <;> constructor <;> omega

/-- Rounding a magnitude of the normal range yields a finite double of the same
binade (closed above), in particular a positive one. -/
theorem round_normal (s : Bool) (r : ℝ) (e : ℤ) (h1 : (2 : ℝ) ^ e ≤ r)
    (h2 : r < (2 : ℝ) ^ (e + 1)) (he1 : -1022 ≤ e) (he2 : e ≤ 1022) :
    ∃ v : ℝ, Dbl.round s r = Dbl.num s v ∧ 0 < v := by
  have hq : max (e - 52) (-1074) = e - 52 := max_eq_left (by omega)
  have hqpos : (0 : ℝ) < (2 : ℝ) ^ (e - 52) := by positivity
  have hsplit : (2 : ℝ) ^ (52 : ℤ) * (2 : ℝ) ^ (e - 52) = (2 : ℝ) ^ e := by
    rw [← zpow_add₀ (by norm_num : (2 : ℝ) ≠ 0)]
    congr 1
    ring
  have hsplit1 : (2 : ℝ) ^ (53 : ℤ) * (2 : ℝ) ^ (e - 52) = (2 : ℝ) ^ (e + 1) := by
    rw [← zpow_add₀ (by norm_num : (2 : ℝ) ≠ 0)]
    congr 1
    ring
  have hx1 : (2 : ℝ) ^ (52 : ℤ) ≤ r / (2 : ℝ) ^ (e - 52) := by
    rw [le_div_iff₀ hqpos, hsplit]
    exact h1
  have hx2 : r / (2 : ℝ) ^ (e - 52) < (2 : ℝ) ^ (53 : ℤ) := by
    rw [div_lt_iff₀ hqpos, hsplit1]
    exact h2
  obtain ⟨hb1, hb2⟩ := roundHalfEven_bounds (r / (2 : ℝ) ^ (e - 52))
  have hfl1 : (2 : ℤ) ^ 52 ≤ ⌊r / (2 : ℝ) ^ (e - 52)⌋ := by
    rw [Int.le_floor]
    push_cast
    exact_mod_cast hx1
  have hfl2 : ⌊r / (2 : ℝ) ^ (e - 52)⌋ < (2 : ℤ) ^ 53 := by
    rw [Int.floor_lt]
    push_cast
    exact_mod_cast hx2
  have hm1 : (2 : ℤ) ^ 52 ≤ Dbl.roundHalfEven (r / (2 : ℝ) ^ (e - 52)) := hfl1.trans hb1
  have hm2 : Dbl.roundHalfEven (r / (2 : ℝ) ^ (e - 52)) ≤ (2 : ℤ) ^ 53 := by omega
  have hm1r : (0 : ℝ) < (Dbl.roundHalfEven (r / (2 : ℝ) ^ (e - 52)) : ℝ) := by
    have : (0 : ℤ) < Dbl.roundHalfEven (r / (2 : ℝ) ^ (e - 52)) :=
      lt_of_lt_of_le (by norm_num) hm1
    exact_mod_cast this
  have hm2r : (Dbl.roundHalfEven (r / (2 : ℝ) ^ (e - 52)) : ℝ) ≤ (2 : ℝ) ^ (53 : ℤ) := by
    have : ((Dbl.roundHalfEven (r / (2 : ℝ) ^ (e - 52)) : ℤ) : ℝ) ≤ (((2 : ℤ) ^ 53 : ℤ) : ℝ) := by
      exact_mod_cast hm2
    norm_num at this ⊢
    exact this
  have hv2 : (Dbl.roundHalfEven (r / (2 : ℝ) ^ (e - 52)) : ℝ) * (2 : ℝ) ^ (e - 52)
      < (2 : ℝ) ^ (1024 : ℤ) := by
    have hle : (Dbl.roundHalfEven (r / (2 : ℝ) ^ (e - 52)) : ℝ) * (2 : ℝ) ^ (e - 52)
        ≤ (2 : ℝ) ^ (e + 1) := by
      rw [← hsplit1]
      exact mul_le_mul_of_nonneg_right hm2r hqpos.le
    have hlt : (2 : ℝ) ^ (e + 1) < (2 : ℝ) ^ (1024 : ℤ) :=
      zpow_lt_zpow_right₀ (by norm_num) (by omega)
    exact lt_of_le_of_lt hle hlt
  exact ⟨_, round_eq_of s r e (e - 52) _ _ h1 h2 hq rfl rfl hv2, mul_pos hm1r hqpos⟩

end Binary64Normal

section Binary64Constants

open Dbl

theorem add_num_of_pos (s t : Bool) (a b r : ℝ) (h : Dbl.val s a + Dbl.val t b = r)
    (hr : 0 < r) : Dbl.add (Dbl.num s a) (Dbl.num t b) = Dbl.round false r := by
  have hpos : ¬ r < 0 := not_lt.mpr hr.le
  simp only [Dbl.add, h, if_neg hr.ne', decide_eq_false hpos, abs_of_pos hr]

theorem add_num_of_neg (s t : Bool) (a b r : ℝ) (h : Dbl.val s a + Dbl.val t b = -r)
    (hr : 0 < r) : Dbl.add (Dbl.num s a) (Dbl.num t b) = Dbl.round true r := by
  have hne : -r ≠ 0 := by linarith
  have hneg : -r < 0 := by linarith
  simp only [Dbl.add, h, if_neg hne, decide_eq_true hneg, abs_neg, abs_of_pos hr]

theorem div_num_of_ne (s t : Bool) (a b : ℝ) (hb : b ≠ 0) :
    Dbl.div (Dbl.num s a) (Dbl.num t b) = Dbl.round (xor s t) (a / b) := by
  simp only [Dbl.div, if_neg hb]

theorem mul_num (s t : Bool) (a b : ℝ) :
    Dbl.mul (Dbl.num s a) (Dbl.num t b) = Dbl.round (xor s t) (a * b) := by
  simp only [Dbl.mul]

theorem lit_H0 : Dbl.lit 70.0 = Dbl.num false 70 := by
  unfold Dbl.lit
  exact round_eq false _ 6 (-46) (70 * 2 ^ 46) 70 (by norm_num) (by norm_num) (by decide)
    (by norm_num) (by norm_num) (by norm_num)

theorem ofNat_hundred : Dbl.ofNat 100 = Dbl.num false 100 := by
  unfold Dbl.ofNat
  exact round_eq false _ 6 (-46) (100 * 2 ^ 46) 100 (by norm_num) (by norm_num) (by decide)
    (by norm_num) (by norm_num) (by norm_num)

theorem ofNat_n : Dbl.ofNat 10000 = Dbl.num false 10000 := by
  unfold Dbl.ofNat
  exact round_eq false _ 13 (-39) (10000 * 2 ^ 39) 10000 (by norm_num) (by norm_num) (by decide)
    (by norm_num) (by norm_num) (by norm_num)

/-- Line 14: the double nearest to `0.3`. -/
theorem lit_OmegaM : Dbl.lit 0.3 = Dbl.num false (5404319552844595 / 2 ^ 54) := by
  unfold Dbl.lit
  exact round_eq false _ (-2) (-54) 5404319552844595 _ (by norm_num) (by norm_num) (by decide)
    (by norm_num [abs_lt]) (by norm_num) (by norm_num)

/-- Line 16: the double nearest to `0.7`. -/
theorem lit_OmegaV : Dbl.lit 0.7 = Dbl.num false (6305039478318694 / 2 ^ 53) := by
  unfold Dbl.lit
  exact round_eq false _ (-1) (-53) 6305039478318694 _ (by norm_num) (by norm_num) (by decide)
    (by norm_num [abs_lt]) (by norm_num) (by norm_num)

/-- Lines 13 and 15 in binary64: `OmegaR = 0x1.64840e1719f81p-14`. -/
theorem radiationDensity64_builtin :
    radiationDensity64 (Dbl.lit 70.0) = Dbl.num false (6271892985061249 / 2 ^ 66) := by
  have hh : Dbl.div (Dbl.lit 70.0) (Dbl.ofNat 100)
      = Dbl.num false (6305039478318694 / 2 ^ 53) := by
    rw [lit_H0, ofNat_hundred, div_num_of_ne _ _ _ _ (by norm_num)]
    exact round_eq _ _ (-1) (-53) 6305039478318694 _ (by norm_num) (by norm_num) (by decide)
      (by norm_num [abs_lt]) (by norm_num) (by norm_num)
  have hlit : Dbl.lit 4.165E-5 = Dbl.num false (6146455125360023 / 2 ^ 67) := by
    unfold Dbl.lit
    exact round_eq false _ (-15) (-67) 6146455125360023 _ (by norm_num) (by norm_num)
      (by decide) (by norm_num [abs_lt]) (by norm_num) (by norm_num)
  have hsq : Dbl.mul (Dbl.num false (6305039478318694 / 2 ^ 53))
      (Dbl.num false (6305039478318694 / 2 ^ 53))
      = Dbl.num false (8827055269646171 / 2 ^ 54) := by
    rw [mul_num]
    exact round_eq _ _ (-2) (-54) 8827055269646171 _ (by norm_num) (by norm_num) (by decide)
      (by norm_num [abs_lt]) (by norm_num) (by norm_num)
  unfold radiationDensity64
  rw [hh, hlit, hsq, div_num_of_ne _ _ _ _ (by norm_num)]
  exact round_eq _ _ (-14) (-66) 6271892985061249 _ (by norm_num) (by norm_num) (by decide)
    (by norm_num [abs_lt]) (by norm_num) (by norm_num)

/-- Line 17 in binary64: `OmegaK = -0x1.64840e171ap-14`. -/
theorem curvatureDensity64_builtin :
    curvatureDensity64 (Dbl.lit 0.3) (Dbl.num false (6271892985061249 / 2 ^ 66)) (Dbl.lit 0.7)
      = Dbl.num true (6271892985061376 / 2 ^ 66) := by
  have h1 : Dbl.sub (Dbl.ofNat 1) (Dbl.lit 0.3)
      = Dbl.num false (6305039478318694 / 2 ^ 53) := by
    rw [ofNat_one, lit_OmegaM]
    unfold Dbl.sub
    simp only [Dbl.neg, Bool.not_false]
    rw [add_num_of_pos false true 1 _ (1 - 5404319552844595 / 2 ^ 54)
      (by simp only [Dbl.val]; norm_num) (by norm_num)]
    exact round_eq_of _ _ (-1) (-53) 6305039478318694 _ (by norm_num) (by norm_num) (by decide)
      (roundHalfEven_tie _ _ (by norm_num) (by decide)) (by norm_num) (by norm_num)
  have h2 : Dbl.sub (Dbl.num false (6305039478318694 / 2 ^ 53))
      (Dbl.num false (6271892985061249 / 2 ^ 66))
      = Dbl.num false (6304273866382041 / 2 ^ 53) := by
    unfold Dbl.sub
    simp only [Dbl.neg, Bool.not_false]
    rw [add_num_of_pos false true _ _
      (6305039478318694 / 2 ^ 53 - 6271892985061249 / 2 ^ 66)
      (by simp only [Dbl.val]; norm_num) (by norm_num)]
    exact round_eq _ _ (-1) (-53) 6304273866382041 _ (by norm_num) (by norm_num) (by decide)
      (by norm_num [abs_lt]) (by norm_num) (by norm_num)
  have h3 : Dbl.sub (Dbl.num false (6304273866382041 / 2 ^ 53))
      (Dbl.num false (6305039478318694 / 2 ^ 53))
      = Dbl.num true (6271892985061376 / 2 ^ 66) := by
    unfold Dbl.sub
    simp only [Dbl.neg, Bool.not_false]
    rw [add_num_of_neg false true _ _ (6271892985061376 / 2 ^ 66)
      (by simp only [Dbl.val]; norm_num) (by norm_num)]
    exact round_eq _ _ (-14) (-66) 6271892985061376 _ (by norm_num) (by norm_num) (by decide)
      (by norm_num [abs_lt]) (by norm_num) (by norm_num)
  unfold curvatureDensity64
  rw [h1, h2, lit_OmegaV, h3]

end Binary64Constants

section Binary64Runs

open Dbl

/-- The densities do not depend on the redshift. -/
theorem calculateDLTrace64_densities (z : Dbl) :
    (calculateDLTrace64 z).OmegaR = Dbl.num false (6271892985061249 / 2 ^ 66) ∧
    (calculateDLTrace64 z).OmegaK = Dbl.num true (6271892985061376 / 2 ^ 66) := by
  simp only [calculateDLTrace64, calculateDLLocals64, radiationDensity64_builtin,
    curvatureDensity64_builtin, and_self]

end Binary64Runs

section Binary64Branch

open Dbl

/-- Line 31 in binary64: the computed `OmegaK` compares below `0.0`. -/
theorem OmegaK64_neg :
    Dbl.lt (Dbl.num true (6271892985061376 / 2 ^ 66)) (Dbl.lit 0.0) = true := by
  rw [lit_zero]
  simp only [Dbl.lt, Dbl.val]
  norm_num

/-- With the constants of the source every run goes through the closed branch. -/
theorem curvatureTransform64_builtin (x : Dbl) :
    curvatureTransform64 (Dbl.num true (6271892985061376 / 2 ^ 66)) x
      = Dbl.div (Dbl.sin (Dbl.mul
          (Dbl.sqrt (Dbl.fabs (Dbl.num true (6271892985061376 / 2 ^ 66)))) x))
          (Dbl.sqrt (Dbl.fabs (Dbl.num true (6271892985061376 / 2 ^ 66)))) := by
  unfold curvatureTransform64
  rw [if_pos OmegaK64_neg]

end Binary64Branch

section Binary64Singular

open Dbl

theorem add_nan_right (x : Dbl) : Dbl.add x Dbl.nan = Dbl.nan := by
  cases x <;> rfl

theorem mul_nan_right (x : Dbl) : Dbl.mul x Dbl.nan = Dbl.nan := by
  cases x <;> rfl

theorem div_nan_right (x : Dbl) : Dbl.div x Dbl.nan = Dbl.nan := by
  cases x <;> rfl

theorem add_nan_left (x : Dbl) : Dbl.add Dbl.nan x = Dbl.nan := by
  cases x <;> rfl

theorem mul_nan_left (x : Dbl) : Dbl.mul Dbl.nan x = Dbl.nan := by
  cases x <;> rfl

theorem div_nan_left (x : Dbl) : Dbl.div Dbl.nan x = Dbl.nan := by
  cases x <;> rfl

/-- Rounding a magnitude that is not below the normal range yields `+inf` or a
positive finite double. -/
theorem round_pos (r : ℝ) (hr : (2 : ℝ) ^ (-1022 : ℤ) ≤ r) :
    Dbl.round false r = Dbl.inf false ∨ ∃ v : ℝ, Dbl.round false r = Dbl.num false v ∧ 0 < v := by
  have hr0 : 0 < r := lt_of_lt_of_le (by positivity) hr
  by_cases hbig : r < (2 : ℝ) ^ (1023 : ℤ)
  · right
    have h1 : (2 : ℝ) ^ Int.log 2 r ≤ r := by
      have := Int.zpow_log_le_self (b := 2) (by norm_num) hr0
      exact_mod_cast this
    have h2 : r < (2 : ℝ) ^ (Int.log 2 r + 1) := by
      have := Int.lt_zpow_succ_log_self (b := 2) (by norm_num) r
      exact_mod_cast this
    have he1 : -1022 ≤ Int.log 2 r := by
      rw [← Int.zpow_le_iff_le_log (by norm_num) hr0]
      exact_mod_cast hr
    have he2 : Int.log 2 r < 1023 := by
      rw [← Int.lt_zpow_iff_log_lt (by norm_num) hr0]
      exact_mod_cast hbig
    exact round_normal false r (Int.log 2 r) h1 h2 he1 (by omega)
  · have hnear : 0 < Dbl.nearest r := by
      have he : (1023 : ℤ) ≤ Int.log 2 r := by
        rw [← Int.zpow_le_iff_le_log (by norm_num) hr0]
        exact_mod_cast not_lt.mp hbig
      have hq : Dbl.quantum r = Int.log 2 r - 52 := by
        unfold Dbl.quantum
        exact max_eq_left (by omega)
      have hqpos : (0 : ℝ) < (2 : ℝ) ^ (Int.log 2 r - 52) := by positivity
      have hx : (1 : ℝ) ≤ r / (2 : ℝ) ^ (Int.log 2 r - 52) := by
        rw [le_div_iff₀ hqpos, one_mul]
        have h1 : (2 : ℝ) ^ Int.log 2 r ≤ r := by
          have := Int.zpow_log_le_self (b := 2) (by norm_num) hr0
          exact_mod_cast this
        have h3 : (2 : ℝ) ^ (Int.log 2 r - 52) ≤ (2 : ℝ) ^ Int.log 2 r :=
          zpow_le_zpow_right₀ (by norm_num) (by omega)
        exact h3.trans h1
      have hfl : (1 : ℤ) ≤ ⌊r / (2 : ℝ) ^ (Int.log 2 r - 52)⌋ := by
        rw [Int.le_floor]
        exact_mod_cast hx
      have hm : (0 : ℤ) < Dbl.roundHalfEven (r / (2 : ℝ) ^ (Int.log 2 r - 52)) := by
        have := (roundHalfEven_bounds (r / (2 : ℝ) ^ (Int.log 2 r - 52))).1
        omega
      unfold Dbl.nearest
      rw [hq]
      apply mul_pos _ hqpos
      exact_mod_cast hm
    unfold Dbl.round
    rw [if_neg hr0.ne']
    by_cases hov : (2 : ℝ) ^ (1024 : ℤ) ≤ Dbl.nearest r
    · left
      rw [if_pos hov]
    · right
      rw [if_neg hov]
      exact ⟨_, rfl, hnear⟩

theorem lit_one : Dbl.lit 1.0 = Dbl.num false 1 := by
  unfold Dbl.lit
  exact round_eq false _ 0 (-52) (2 ^ 52) 1 (by norm_num) (by norm_num) (by decide)
    (by norm_num) (by norm_num) (by norm_num)

theorem lit_half : Dbl.lit 0.5 = Dbl.num false (1 / 2) := by
  unfold Dbl.lit
  exact round_eq false _ (-1) (-53) (2 ^ 52) _ (by norm_num) (by norm_num) (by decide)
    (by norm_num) (by norm_num) (by norm_num)

/-- The node `i + 0.5` of line 24 is `+inf` or a positive finite double. -/
theorem node_pos (i : ℕ) (hi : 1 ≤ i) :
    Dbl.add (Dbl.ofNat i) (Dbl.lit 0.5) = Dbl.inf false ∨
    ∃ v : ℝ, Dbl.add (Dbl.ofNat i) (Dbl.lit 0.5) = Dbl.num false v ∧ 0 < v := by
  have hi1 : (1 : ℝ) ≤ i := by exact_mod_cast hi
  rw [lit_half]
  unfold Dbl.ofNat
  rcases round_pos (i : ℝ) (le_trans (by norm_num) hi1) with h | ⟨v, h, hv⟩
  · left
    rw [h]
    rfl
  · rw [h, add_num_of_pos false false v (1 / 2) (v + 1 / 2)
      (by simp only [Dbl.val]; norm_num) (by positivity)]
    apply round_pos
    have : (2 : ℝ) ^ (-1022 : ℤ) ≤ 1 / 2 := by norm_num
    linarith

/-- With `az = +inf` every midpoint of line 24 is a NaN (`inf - inf`). -/
theorem midpoint64_inf (i : ℕ) (hi : 1 ≤ i) :
    midpoint64 (Dbl.inf false) 10000 i = Dbl.nan := by
  unfold midpoint64
  rw [lit_one, ofNat_n]
  have hsub : Dbl.sub (Dbl.num false 1) (Dbl.inf false) = Dbl.inf true := rfl
  rw [hsub]
  rcases node_pos i hi with h | ⟨v, h, hv⟩
  · rw [h]
    rfl
  · rw [h]
    simp [Dbl.mul, hv.ne', Dbl.div, Dbl.add]

theorem loopBody64_inf (K M R V : Dbl) (i : ℕ) (hi : 1 ≤ i) (acc : Dbl) :
    loopBody64 K M R V (Dbl.inf false) 10000 i acc = Dbl.nan := by
  unfold loopBody64
  rw [midpoint64_inf i hi, mul_nan_left, div_nan_right, add_nan_right]

/-- A loop whose body yields a NaN at every index yields a NaN once it has run. -/
theorem forLoop64_nan (n : ℕ) (body : ℕ → Dbl → Dbl)
    (hbody : ∀ i acc, 1 ≤ i → body i acc = Dbl.nan) :
    ∀ (k i : ℕ), n - i = k → 1 ≤ i → forLoop64 n body i Dbl.nan = Dbl.nan := by
  intro k
  induction k with
  | zero =>
    intro i hk _
    have hi : ¬ i < n := by omega
    rw [forLoop64, if_neg hi]
  | succ k ih =>
    intro i hk hi1
    have hi : i < n := by omega
    rw [forLoop64, if_pos hi, hbody i _ hi1]
    exact ih (i + 1) (by omega) (by omega)

/-- The run at `z = -1` in binary64: `1 + z = +0`, `az = +inf`, and the value
returned is a NaN. -/
theorem calculateDL64_singular :
    (calculateDLTrace64 (Dbl.num true 1)).az = Dbl.inf false ∧
    calculateDL64 (Dbl.num true 1) = Dbl.nan := by
  have hadd : Dbl.add (Dbl.ofNat 1) (Dbl.num true 1) = Dbl.num false 0 := by
    rw [ofNat_one]
    simp [Dbl.add, Dbl.val]
  have haz : Dbl.div (Dbl.ofNat 1) (Dbl.num false 0) = Dbl.inf false := by
    rw [ofNat_one]
    simp [Dbl.div]
  have hloop : ∀ K M R V : Dbl,
      forLoop64 10000 (loopBody64 K M R V (Dbl.inf false) 10000) 1 (Dbl.lit 0.0) = Dbl.nan := by
    intro K M R V
    rw [forLoop64, if_pos (by norm_num), loopBody64_inf K M R V 1 le_rfl]
    exact forLoop64_nan 10000 _ (fun i acc hi => loopBody64_inf K M R V i hi acc) _ _ rfl
      (by norm_num)
  constructor
  · simp only [calculateDLTrace64, calculateDLLocals64, hadd, haz]
  · simp only [calculateDL64, calculateDLTrace64, calculateDLLocals64, hadd, haz,
      integrateDCMR64, hloop, mul_nan_right, div_nan_left, radiationDensity64_builtin,
      curvatureDensity64_builtin, curvatureTransform64_builtin]
    simp only [Dbl.sin, div_nan_left, mul_nan_right]

end Binary64Singular

section Binary64Facts

open Dbl

/-- The binary64 densities of lines 14-17 add up, as real numbers, to
`1 - 4223/2^66`, and their left-to-right rounded sum is `1 - 2^-53`. -/
theorem density64_sum :
    Dbl.val false (5404319552844595 / 2 ^ 54) + Dbl.val false (6271892985061249 / 2 ^ 66)
        + Dbl.val false (6305039478318694 / 2 ^ 53) + Dbl.val true (6271892985061376 / 2 ^ 66)
      = 1 - 4223 / 2 ^ 66 ∧
    Dbl.add (Dbl.add (Dbl.add (Dbl.lit 0.3) (Dbl.num false (6271892985061249 / 2 ^ 66)))
        (Dbl.lit 0.7)) (Dbl.num true (6271892985061376 / 2 ^ 66))
      = Dbl.num false (9007199254740991 / 2 ^ 53) := by
  constructor
  · simp only [Dbl.val]
    norm_num
  · have h1 : Dbl.add (Dbl.lit 0.3) (Dbl.num false (6271892985061249 / 2 ^ 66))
        = Dbl.num false (5405850776717901 / 2 ^ 54) := by
      rw [lit_OmegaM, add_num_of_pos false false _ _
        (5404319552844595 / 2 ^ 54 + 6271892985061249 / 2 ^ 66)
        (by simp only [Dbl.val]; norm_num) (by norm_num)]
      exact round_eq _ _ (-2) (-54) 5405850776717901 _ (by norm_num) (by norm_num) (by decide)
        (by norm_num [abs_lt]) (by norm_num) (by norm_num)
    have h2 : Dbl.add (Dbl.num false (5405850776717901 / 2 ^ 54)) (Dbl.lit 0.7)
        = Dbl.num false (4503982433338822 / 2 ^ 52) := by
      rw [lit_OmegaV, add_num_of_pos false false _ _
        (5405850776717901 / 2 ^ 54 + 6305039478318694 / 2 ^ 53)
        (by simp only [Dbl.val]; norm_num) (by norm_num)]
      exact round_eq _ _ 0 (-52) 4503982433338822 _ (by norm_num) (by norm_num) (by decide)
        (by norm_num [abs_lt]) (by norm_num) (by norm_num)
    have h3 : Dbl.add (Dbl.num false (4503982433338822 / 2 ^ 52))
        (Dbl.num true (6271892985061376 / 2 ^ 66))
        = Dbl.num false (9007199254740991 / 2 ^ 53) := by
      rw [add_num_of_pos false true _ _
        (4503982433338822 / 2 ^ 52 - 6271892985061376 / 2 ^ 66)
        (by simp only [Dbl.val]; norm_num) (by norm_num)]
      exact round_eq _ _ (-1) (-53) 9007199254740991 _ (by norm_num) (by norm_num) (by decide)
        (by norm_num [abs_lt]) (by norm_num) (by norm_num)
    rw [h1, h2, h3]

end Binary64Facts

section Claims

open Finset

/-- C1: with the constants of the source, `calculateDL(0)` returns exactly `0`:
`az = 1`, the prefactor `1 - az` is `0`, hence `DCMR = 0`, `DCMT = 0`, `DL = 0`. -/
theorem calculateDL_zero :
    ∃ t : Locals ℝ, calculateDLTrace realLibm 0 = some t ∧ t.az = 1 ∧ 1 - t.az = 0 ∧
      t.DCMR = 0 ∧ t.DCMT = 0 ∧ t.DL = 0 ∧ calculateDL realLibm 0 = some 0 := by
  have htr := calculateDLTrace_of_gt 0 (by norm_num)
  have hD : specDCMR (-0.000085) 0.3 0.000085 0.7 (1 / (1 + 0)) 10000 = 0 := by
    simp [specDCMR]
  refine ⟨closedLocals 0, htr, ?_, ?_, ?_, ?_, ?_, ?_⟩
  · simp [closedLocals]
  · simp [closedLocals]
  · simp only [closedLocals, hD]
  · simp only [closedLocals, hD]
    simp
  · simp only [closedLocals, hD]
    simp
  · simp only [calculateDL, htr, Option.map_some', closedLocals, hD]
    simp

/-- C8: for every `z > -1` the loop of lines 20-28 computes
`DCMR = (1 - az)/N * Σ_{i=1..N-1} 1/(a_i * adot(a_i))` with `N = 10000`: the sum
has exactly `N - 1 = 9999` terms, it is the sum over `i = 0..N-1` less the term
of the midpoint `i = 0`, and the divisor is `N`. -/
theorem integrateDCMR_refines (z : ℝ) (hz : -1 < z) :
    ∃ t : Locals ℝ, calculateDLTrace realLibm z = some t ∧ t.az = 1 / (1 + z) ∧
      forLoop 10000 (loopBody realLibm t.OmegaK 0.3 t.OmegaR 0.7 t.az 10000) 1 0.0
        = some (∑ i in Icc 1 (10000 - 1), specTerm t.OmegaK 0.3 t.OmegaR 0.7 t.az 10000 i) ∧
      integrateDCMR realLibm t.OmegaK 0.3 t.OmegaR 0.7 t.az 10000 = some t.DCMR ∧
      t.DCMR = specDCMR t.OmegaK 0.3 t.OmegaR 0.7 t.az 10000 ∧
      (Icc 1 (10000 - 1)).card = 9999 ∧
      t.DCMR = (1 - t.az) / ((10000 : ℕ) : ℝ)
        * (∑ i in range 10000, specTerm t.OmegaK 0.3 t.OmegaR 0.7 t.az 10000 i
            - specTerm t.OmegaK 0.3 t.OmegaR 0.7 t.az 10000 0) := by
  have h1 : 0 < 1 + z := by linarith
  have haz : (0 : ℝ) < 1 / (1 + z) := one_div_pos.mpr h1
  have hpos : ∀ i, 1 ≤ i → i < 10000 → 0 < specMidpoint (1 / (1 + z)) 10000 i :=
    fun i _ h2 => specMidpoint_pos _ _ _ haz h2
  have hIco : Ico 1 10000 = Icc 1 (10000 - 1) := by
    ext j
    simp only [mem_Ico, mem_Icc]
    omega
  have hloop := forLoop_eq_sum 10000
    (loopBody realLibm (-0.000085) 0.3 0.000085 0.7 (1 / (1 + z)) 10000)
    (specTerm (-0.000085) 0.3 0.000085 0.7 (1 / (1 + z)) 10000) (10000 - 1) 1 (0.0 : ℝ) rfl
    (fun j hj hjN s => loopBody_real _ _ _ _ _ _ j (by norm_num) (hpos j hj hjN).ne'
      (radicand_pos_builtin _ (hpos j hj hjN)) s)
  refine ⟨closedLocals z, calculateDLTrace_of_gt z hz, rfl, ?_, ?_, rfl, ?_, ?_⟩
  · simp only [closedLocals]
    rw [hloop, hIco]
    norm_num
  · exact integrateDCMR_real _ _ _ _ _ _ (by norm_num) (fun i h2 h3 => (hpos i h2 h3).ne')
      (fun i h2 h3 => radicand_pos_builtin _ (hpos i h2 h3))
  · simp
  · simp only [closedLocals, specDCMR]
    rw [Finset.range_eq_Ico, Finset.sum_eq_sum_Ico_succ_bot (by norm_num : 0 < 10000),
      ← hIco]
    congr 1
    ring

/-- Witness of C8 at `z = 0.023`. -/
theorem integrateDCMR_refines_witness :
    (-1 : ℝ) < 0.023 ∧
    ∃ t : Locals ℝ, calculateDLTrace realLibm 0.023 = some t ∧ t.az = 1 / (1 + 0.023) ∧
      forLoop 10000 (loopBody realLibm t.OmegaK 0.3 t.OmegaR 0.7 t.az 10000) 1 0.0
        = some (∑ i in Icc 1 (10000 - 1), specTerm t.OmegaK 0.3 t.OmegaR 0.7 t.az 10000 i) ∧
      integrateDCMR realLibm t.OmegaK 0.3 t.OmegaR 0.7 t.az 10000 = some t.DCMR ∧
      t.DCMR = specDCMR t.OmegaK 0.3 t.OmegaR 0.7 t.az 10000 ∧
      (Icc 1 (10000 - 1)).card = 9999 ∧
      t.DCMR = (1 - t.az) / ((10000 : ℕ) : ℝ)
        * (∑ i in range 10000, specTerm t.OmegaK 0.3 t.OmegaR 0.7 t.az 10000 i
            - specTerm t.OmegaK 0.3 t.OmegaR 0.7 t.az 10000 0) :=
  ⟨by norm_num, integrateDCMR_refines 0.023 (by norm_num)⟩

/-- C9: the curvature transform of lines 30-39 takes exactly one branch by the
sign of `OmegaK`: `sin(sqrt|OmegaK| * DCMR)/sqrt|OmegaK|` when `OmegaK < 0`,
`sinh(sqrt(OmegaK) * DCMR)/sqrt(OmegaK)` when `OmegaK > 0`, and when
`OmegaK = 0` it is `DCMR` itself, whatever the functions `sqrt`, `sin`, `sinh`
are, so none of them is applied. -/
theorem curvatureTransform_branches (OmegaK DCMR : ℝ) :
    (OmegaK < 0 → curvatureTransform realLibm OmegaK DCMR
      = some (Real.sin (Real.sqrt |OmegaK| * DCMR) / Real.sqrt |OmegaK|)) ∧
    (0 < OmegaK → curvatureTransform realLibm OmegaK DCMR
      = some (Real.sinh (Real.sqrt OmegaK * DCMR) / Real.sqrt OmegaK)) ∧
    (OmegaK = 0 → ∀ m : Libm ℝ, curvatureTransform m OmegaK DCMR = some DCMR) := by
  refine ⟨fun hK => ?_, fun hK => ?_, fun hK m => ?_⟩
  · have hK0 : OmegaK < 0.0 := by norm_num; exact hK
    have hS : realLibm.sqrt |OmegaK| ≠ 0 := (Real.sqrt_pos.mpr (abs_pos.mpr hK.ne)).ne'
    simp only [curvatureTransform, if_pos hK0, fsqrt_of_nonneg realLibm (abs_nonneg OmegaK),
      fdiv_of_ne hS, Option.bind_eq_bind, Option.some_bind]
    rfl
  · have hK0 : ¬ OmegaK < 0.0 := by norm_num; exact hK.le
    have hK1 : OmegaK > 0.0 := by norm_num; exact hK
    have hS : realLibm.sqrt |OmegaK| ≠ 0 := (Real.sqrt_pos.mpr (abs_pos.mpr hK.ne')).ne'
    simp only [curvatureTransform, if_neg hK0, if_pos hK1,
      fsqrt_of_nonneg realLibm (abs_nonneg OmegaK), fdiv_of_ne hS, Option.bind_eq_bind,
      Option.some_bind]
    rw [abs_of_pos hK]
    rfl
  · subst hK
    have h0 : ¬ (0 : ℝ) < 0.0 := by norm_num
    have h1 : ¬ (0 : ℝ) > 0.0 := by norm_num
    simp only [curvatureTransform, if_neg h0, if_neg h1, Option.pure_def]

/-- Witness of C9 at `OmegaK = -1`, `OmegaK = 1` and `OmegaK = 0` with `DCMR = 2`. -/
theorem curvatureTransform_branches_witness :
    curvatureTransform realLibm (-1) 2
      = some (Real.sin (Real.sqrt |(-1 : ℝ)| * 2) / Real.sqrt |(-1 : ℝ)|) ∧
    curvatureTransform realLibm 1 2 = some (Real.sinh (Real.sqrt 1 * 2) / Real.sqrt 1) ∧
    ∀ m : Libm ℝ, curvatureTransform m 0 2 = some 2 :=
  ⟨(curvatureTransform_branches (-1) 2).1 (by norm_num),
   (curvatureTransform_branches 1 2).2.1 (by norm_num),
   (curvatureTransform_branches 0 2).2.2 rfl⟩

/-- C3, refuted as stated: at the singular boundary `z = -1` the call
`calculateDL(-1)` throws nothing; the division `1/(1+z)` by zero is evaluated
and the call returns a non-finite double to its caller. -/
theorem domain_error_counterexample :
    (-1 : ℝ) ≤ -1 ∧ fdiv (1 : ℝ) (1 + -1) = none ∧
    calculateDLCall realLibm (-1) = Outcome.returned none ∧
    ¬ ∃ what : String, calculateDLCall realLibm (-1) = Outcome.thrown what := by
  have hd : fdiv (1 : ℝ) (1 + -1) = none := by
    have h0 : (1 : ℝ) + -1 = 0 := by norm_num
    rw [h0, fdiv_zero_right]
  have hc : calculateDL realLibm (-1) = none := by
    simp only [calculateDL, calculateDLTrace, calculateDLLocals, radiationDensity_builtin, hd,
      Option.bind_eq_bind, Option.some_bind, Option.none_bind, Option.map_none']
  refine ⟨le_rfl, hd, ?_, ?_⟩
  · simp only [calculateDLCall, hc]
  · rintro ⟨what, hw⟩
    simp only [calculateDLCall] at hw
    exact Outcome.noConfusion hw

/-- C5: with the constants of the source the luminosity distance at the
Coma-cluster redshift lies in the stated band, `99 ≤ calculateDL(0.023) ≤ 102`,
and exceeds the Hubble-flow estimate `c * 0.023 / H0`. -/
theorem calculateDL_coma :
    ∃ d : ℝ, calculateDL realLibm 0.023 = some d ∧ 99 ≤ d ∧ d ≤ 102 ∧
      299792.458 * 0.023 / 70 < d := by
  obtain ⟨hlo, hhi⟩ := closedLocals_DL_bounds 0.023 (by norm_num) (by norm_num)
  refine ⟨(closedLocals 0.023).DL, ?_, ?_, ?_, ?_⟩
  · simp only [calculateDL, calculateDLTrace_of_gt 0.023 (by norm_num), Option.map_some']
  · refine le_trans ?_ hlo
    norm_num
  · refine le_trans hhi ?_
    norm_num
  · refine lt_of_lt_of_le ?_ hlo
    norm_num

/-- C6: Hubble-law limit.  With the constants of the source the result at
`z = 0.01` agrees with `c * z / H0` to within 1% relative error. -/
theorem calculateDL_hubble_limit :
    ∃ d : ℝ, calculateDL realLibm 0.01 = some d ∧
      |d - 299792.458 * 0.01 / 70| ≤ 0.01 * (299792.458 * 0.01 / 70) := by
  obtain ⟨hlo, hhi⟩ := closedLocals_DL_bounds 0.01 (by norm_num) (by norm_num)
  refine ⟨(closedLocals 0.01).DL, ?_, ?_⟩
  · simp only [calculateDL, calculateDLTrace_of_gt 0.01 (by norm_num), Option.map_some']
  · rw [abs_le]
    constructor
    · have h : (299792.458 : ℝ) * 0.01 / 70 - 0.01 * (299792.458 * 0.01 / 70)
          ≤ 299792.458 / 70.0 * (1 + 0.01) * ((1 - 0.00000004)
            * ((1 - 1 / (1 + 0.01)) / 10000 * (9999 + (1 - 1 / (1 + 0.01)) * 4999.00005))) := by
        norm_num
      linarith
    · have h : (299792.458 : ℝ) / 70.0 * (1 + 0.01)
            * ((1 - 1 / (1 + 0.01)) / 10000 * (9999 + 2 * ((1 - 1 / (1 + 0.01)) * 4999.00005)))
          ≤ 299792.458 * 0.01 / 70 + 0.01 * (299792.458 * 0.01 / 70) := by
        norm_num
      linarith

/-- C3, amended: `calculateDL` makes no domain check and signals no error.  For
every `z ≤ -1` the call returns a double to its caller and throws nothing; at
the singular boundary `z = -1` the division of line 18 is a division by zero
(`az = +inf` in binary64) and the double returned is not finite: it is a NaN. -/
theorem no_domain_error (z : ℝ) (hz : z ≤ -1) :
    (∃ d : Option ℝ, calculateDLCall realLibm z = Outcome.returned d) ∧
    (∀ what : String, calculateDLCall realLibm z ≠ Outcome.thrown what) ∧
    (z = -1 → calculateDLCall realLibm z = Outcome.returned none) ∧
    (calculateDLTrace64 (Dbl.num true 1)).az = Dbl.inf false ∧
    calculateDL64 (Dbl.num true 1) = Dbl.nan := by
  have _hz := hz
  refine ⟨⟨_, rfl⟩, fun what hw => ?_, fun h1 => ?_, calculateDL64_singular.1,
    calculateDL64_singular.2⟩
  · simp only [calculateDLCall] at hw
    exact Outcome.noConfusion hw
  · subst h1
    have hd : fdiv (1 : ℝ) (1 + -1) = none := by
      have h0 : (1 : ℝ) + -1 = 0 := by norm_num
      rw [h0, fdiv_zero_right]
    simp only [calculateDLCall, calculateDL, calculateDLTrace, calculateDLLocals,
      radiationDensity_builtin, hd, Option.bind_eq_bind, Option.some_bind, Option.none_bind,
      Option.map_none']

/-- Witness of the amended C3 at `z = -1`. -/
theorem no_domain_error_witness :
    (-1 : ℝ) ≤ -1 ∧
    (∃ d : Option ℝ, calculateDLCall realLibm (-1) = Outcome.returned d) ∧
    (∀ what : String, calculateDLCall realLibm (-1) ≠ Outcome.thrown what) ∧
    calculateDLCall realLibm (-1) = Outcome.returned none ∧
    (calculateDLTrace64 (Dbl.num true 1)).az = Dbl.inf false ∧
    calculateDL64 (Dbl.num true 1) = Dbl.nan :=
  ⟨le_rfl, (no_domain_error (-1) le_rfl).1, (no_domain_error (-1) le_rfl).2.1,
   (no_domain_error (-1) le_rfl).2.2.1 rfl, (no_domain_error (-1) le_rfl).2.2.2.1,
   (no_domain_error (-1) le_rfl).2.2.2.2⟩

/-- C4, refuted as stated: the binary64 densities `calculateDL` computes are
`OmegaR = 0x1.64840e1719f81p-14` and `OmegaK = -0x1.64840e171ap-14`, which is not
`-OmegaR`; with `OmegaM` and `OmegaV` the doubles nearest `0.3` and `0.7`, the
four add up to `1 - 4223/2^66` as real numbers and to `1 - 2^-53` when summed in
binary64, not to `1`. -/
theorem closure_counterexample :
    Dbl.lit 0.3 = Dbl.num false (5404319552844595 / 2 ^ 54) ∧
    Dbl.lit 0.7 = Dbl.num false (6305039478318694 / 2 ^ 53) ∧
    (calculateDLTrace64 (Dbl.num false 0)).OmegaR
      = Dbl.num false (6271892985061249 / 2 ^ 66) ∧
    (calculateDLTrace64 (Dbl.num false 0)).OmegaK
      = Dbl.num true (6271892985061376 / 2 ^ 66) ∧
    (calculateDLTrace64 (Dbl.num false 0)).OmegaK
      ≠ Dbl.neg (calculateDLTrace64 (Dbl.num false 0)).OmegaR ∧
    Dbl.val false (5404319552844595 / 2 ^ 54) + Dbl.val false (6271892985061249 / 2 ^ 66)
        + Dbl.val false (6305039478318694 / 2 ^ 53) + Dbl.val true (6271892985061376 / 2 ^ 66)
      ≠ 1 ∧
    Dbl.add (Dbl.add (Dbl.add (Dbl.lit 0.3) (calculateDLTrace64 (Dbl.num false 0)).OmegaR)
        (Dbl.lit 0.7)) (calculateDLTrace64 (Dbl.num false 0)).OmegaK
      = Dbl.num false (9007199254740991 / 2 ^ 53) ∧
    Dbl.num false (9007199254740991 / 2 ^ 53) ≠ Dbl.ofNat 1 := by
  obtain ⟨hR, hK⟩ := calculateDLTrace64_densities (Dbl.num false 0)
  obtain ⟨hsum, hfl⟩ := density64_sum
  refine ⟨lit_OmegaM, lit_OmegaV, hR, hK, ?_, ?_, ?_, ?_⟩
  · rw [hR, hK]
    simp only [Dbl.neg, Bool.not_false, ne_eq, Dbl.num.injEq, true_and]
    norm_num
  · rw [hsum]
    norm_num
  · rw [hR, hK]
    exact hfl
  · rw [ofNat_one]
    simp only [ne_eq, Dbl.num.injEq, true_and]
    norm_num

/-- C4, amended: `OmegaK` is computed as the residual of line 17, so in exact
arithmetic the four densities sum to `1` for every `H0 ≠ 0`, `OmegaM`, `OmegaV`
and for the constants of the source.  The binary64 values of every run close up
to rounding only: their sum is `1 - 4223/2^66`, within `2^-53` of `1`. -/
theorem density_closure (H0 OmegaM OmegaV : ℝ) (hH : H0 ≠ 0) :
    (∃ R : ℝ, radiationDensity H0 = some R ∧ R = 4.165e-5 / (H0 / 100) ^ 2 ∧
      OmegaM + R + OmegaV + curvatureDensity OmegaM R OmegaV = 1) ∧
    (∀ (c z : ℝ) (t : Locals ℝ), calculateDLLocals realLibm c H0 OmegaM OmegaV z = some t →
      t.OmegaK = 1 - OmegaM - t.OmegaR - OmegaV ∧ OmegaM + t.OmegaR + OmegaV + t.OmegaK = 1) ∧
    (∃ t : Locals ℝ, calculateDLTrace realLibm 0 = some t ∧
      (0.3 : ℝ) + t.OmegaR + 0.7 + t.OmegaK = 1) ∧
    (∀ z : Dbl, (calculateDLTrace64 z).OmegaR = Dbl.num false (6271892985061249 / 2 ^ 66) ∧
      (calculateDLTrace64 z).OmegaK = Dbl.num true (6271892985061376 / 2 ^ 66)) ∧
    Dbl.val false (5404319552844595 / 2 ^ 54) + Dbl.val false (6271892985061249 / 2 ^ 66)
        + Dbl.val false (6305039478318694 / 2 ^ 53) + Dbl.val true (6271892985061376 / 2 ^ 66)
      = 1 - 4223 / 2 ^ 66 ∧
    |Dbl.val false (5404319552844595 / 2 ^ 54) + Dbl.val false (6271892985061249 / 2 ^ 66)
        + Dbl.val false (6305039478318694 / 2 ^ 53) + Dbl.val true (6271892985061376 / 2 ^ 66)
      - 1| ≤ 1 / 2 ^ 53 := by
  obtain ⟨h1, h2, h3⟩ := density_closure_exact H0 OmegaM OmegaV hH
  refine ⟨h1, h2, h3, calculateDLTrace64_densities, density64_sum.1, ?_⟩
  rw [density64_sum.1]
  norm_num [abs_le]

/-- Witness of the amended C4 at the constants of the source. -/
theorem density_closure_witness :
    (70.0 : ℝ) ≠ 0 ∧
    (∃ R : ℝ, radiationDensity (70.0 : ℝ) = some R ∧ R = 4.165e-5 / ((70.0 : ℝ) / 100) ^ 2 ∧
      (0.3 : ℝ) + R + 0.7 + curvatureDensity 0.3 R 0.7 = 1) ∧
    (∀ z : Dbl, (calculateDLTrace64 z).OmegaR = Dbl.num false (6271892985061249 / 2 ^ 66) ∧
      (calculateDLTrace64 z).OmegaK = Dbl.num true (6271892985061376 / 2 ^ 66)) ∧
    |Dbl.val false (5404319552844595 / 2 ^ 54) + Dbl.val false (6271892985061249 / 2 ^ 66)
        + Dbl.val false (6305039478318694 / 2 ^ 53) + Dbl.val true (6271892985061376 / 2 ^ 66)
      - 1| ≤ 1 / 2 ^ 53 :=
  ⟨by norm_num, (density_closure 70.0 0.3 0.7 (by norm_num)).1,
   (density_closure 70.0 0.3 0.7 (by norm_num)).2.2.2.1,
   (density_closure 70.0 0.3 0.7 (by norm_num)).2.2.2.2.2⟩

end Claims

end LumDist
